import Mathlib

/-
Verification development for the json-to-mssql core pipeline.

Shallow embedding of:
  - src/backend/schema_engine.py  (truncate_name, determine_sql_type, analyze_json_structure)
  - src/backend/db_engine.py      (flatten_data, and the table-ordering loop of sync_to_db)

Python strings are modelled as Lean Strings; Python dicts (which preserve
insertion order, update values in place, and append new keys at the end) are
modelled as association lists with the operations alookup / aset below.
Python ints are modelled as Int, machine-level 32-bit quantities inside MD5
as Nat with explicit reduction modulo 2^32.
-/

/-- Lookup in an ordered association list, mirroring Python `d[k]` / `d.get(k)`:
the first (and, for lists built with `aset`, only) binding of the key. -/
def alookup {β : Type} : List (String × β) → String → Option β
  | [], _ => none
  | (k, v) :: rest, key => if k = key then some v else alookup rest key

/-- Update in an ordered association list, mirroring Python `d[k] = v`:
if the key is present its value is replaced keeping its position,
otherwise the new binding is appended at the end. -/
def aset {β : Type} : List (String × β) → String → β → List (String × β)
  | [], key, val => [(key, val)]
  | (k, v) :: rest, key, val =>
    if k = key then (k, val) :: rest else (k, v) :: aset rest key val

/-- JSON values as produced by Python's json.loads: null, booleans, ints,
floats (payload modelled as a rational, the pipeline never computes with it),
strings, arrays, and objects (ordered key-value lists). -/
inductive Json where
  | null : Json
  | bool : Bool → Json
  | int : Int → Json
  | float : Rat → Json
  | str : String → Json
  | arr : List Json → Json
  | obj : List (String × Json) → Json
deriving Repr

/-- Python `isinstance(v, (dict, list))`. -/
def Json.isContainer : Json → Bool
  | .arr _ => true
  | .obj _ => true
  | _ => false

/- ===================== MD5 (hashlib.md5(...).hexdigest()) ===================== -/

/-- 2^32, the modulus for MD5's 32-bit arithmetic. -/
def M32 : Nat := 4294967296

/-- Reduce modulo 2^32. -/
def mask32 (x : Nat) : Nat := x % M32

/-- 32-bit left rotation (x assumed < 2^32, s between 1 and 31). -/
def rotl32 (x s : Nat) : Nat := (x % 2 ^ (32 - s)) * 2 ^ s + x / 2 ^ (32 - s)

/-- 32-bit bitwise complement (x assumed < 2^32). -/
def not32 (x : Nat) : Nat := 4294967295 - x

/-- The 64 MD5 sine-derived constants. -/
def md5K : List Nat :=
  [0xd76aa478, 0xe8c7b756, 0x242070db, 0xc1bdceee,
   0xf57c0faf, 0x4787c62a, 0xa8304613, 0xfd469501,
   0x698098d8, 0x8b44f7af, 0xffff5bb1, 0x895cd7be,
   0x6b901122, 0xfd987193, 0xa679438e, 0x49b40821,
   0xf61e2562, 0xc040b340, 0x265e5a51, 0xe9b6c7aa,
   0xd62f105d, 0x02441453, 0xd8a1e681, 0xe7d3fbc8,
   0x21e1cde6, 0xc33707d6, 0xf4d50d87, 0x455a14ed,
   0xa9e3e905, 0xfcefa3f8, 0x676f02d9, 0x8d2a4c8a,
   0xfffa3942, 0x8771f681, 0x6d9d6122, 0xfde5380c,
   0xa4beea44, 0x4bdecfa9, 0xf6bb4b60, 0xbebfbc70,
   0x289b7ec6, 0xeaa127fa, 0xd4ef3085, 0x04881d05,
   0xd9d4d039, 0xe6db99e5, 0x1fa27cf8, 0xc4ac5665,
   0xf4292244, 0x432aff97, 0xab9423a7, 0xfc93a039,
   0x655b59c3, 0x8f0ccc92, 0xffeff47d, 0x85845dd1,
   0x6fa87e4f, 0xfe2ce6e0, 0xa3014314, 0x4e0811a1,
   0xf7537e82, 0xbd3af235, 0x2ad7d2bb, 0xeb86d391]

/-- The 64 MD5 per-round left-rotation amounts. -/
def md5S : List Nat :=
  [7, 12, 17, 22, 7, 12, 17, 22, 7, 12, 17, 22, 7, 12, 17, 22,
   5, 9, 14, 20, 5, 9, 14, 20, 5, 9, 14, 20, 5, 9, 14, 20,
   4, 11, 16, 23, 4, 11, 16, 23, 4, 11, 16, 23, 4, 11, 16, 23,
   6, 10, 15, 21, 6, 10, 15, 21, 6, 10, 15, 21, 6, 10, 15, 21]

/-- The MD5 round function (F, G, H, I depending on the round index). -/
def md5F (i b c d : Nat) : Nat :=
  if i < 16 then Nat.lor (Nat.land b c) (Nat.land (not32 b) d)
  else if i < 32 then Nat.lor (Nat.land b d) (Nat.land c (not32 d))
  else if i < 48 then Nat.xor b (Nat.xor c d)
  else Nat.xor c (Nat.lor b (not32 d))

/-- The MD5 message-word index for each round. -/
def md5G (i : Nat) : Nat :=
  if i < 16 then i
  else if i < 32 then (5 * i + 1) % 16
  else if i < 48 then (3 * i + 5) % 16
  else (7 * i) % 16

/-- Little-endian 32-bit word number j of a 64-byte chunk. -/
def leWord (chunk : List Nat) (j : Nat) : Nat :=
  chunk.getD (4 * j) 0 + 256 * chunk.getD (4 * j + 1) 0 +
    65536 * chunk.getD (4 * j + 2) 0 + 16777216 * chunk.getD (4 * j + 3) 0

/-- One MD5 round on the state (a, b, c, d). -/
def md5Round (chunk : List Nat) (st : Nat × Nat × Nat × Nat) (i : Nat) :
    Nat × Nat × Nat × Nat :=
  let (a, b, c, d) := st
  let f := mask32 (a + md5F i b c d + md5K.getD i 0 + leWord chunk (md5G i))
  (d, mask32 (b + rotl32 f (md5S.getD i 0)), b, c)

/-- Process one 64-byte chunk. -/
def md5Chunk (st : Nat × Nat × Nat × Nat) (chunk : List Nat) :
    Nat × Nat × Nat × Nat :=
  let (a0, b0, c0, d0) := st
  let (a, b, c, d) := (List.range 64).foldl (md5Round chunk) (a0, b0, c0, d0)
  (mask32 (a0 + a), mask32 (b0 + b), mask32 (c0 + c), mask32 (d0 + d))

/-- n as `count` little-endian bytes. -/
def leBytes (n count : Nat) : List Nat :=
  (List.range count).map (fun i => n / 256 ^ i % 256)

/-- MD5 padding: 0x80, zeros to 56 mod 64, then the 64-bit little-endian bit length. -/
def md5Pad (msg : List Nat) : List Nat :=
  msg ++ [128] ++ List.replicate ((119 - msg.length % 64) % 64) 0 ++
    leBytes ((8 * msg.length) % 2 ^ 64) 8

/-- Split into 64-byte chunks (fuel is the list length, always sufficient). -/
def chunks64 : Nat → List Nat → List (List Nat)
  | 0, _ => []
  | _, [] => []
  | n + 1, l => l.take 64 :: chunks64 n (l.drop 64)

/-- The 16-byte MD5 digest of a byte string. -/
def md5Digest (msg : List Nat) : List Nat :=
  let padded := md5Pad msg
  let (a, b, c, d) :=
    (chunks64 padded.length padded).foldl md5Chunk
      (0x67452301, 0xefcdab89, 0x98badcfe, 0x10325476)
  leBytes a 4 ++ leBytes b 4 ++ leBytes c 4 ++ leBytes d 4

/-- Lowercase hexadecimal digit. -/
def hexChar (n : Nat) : Char := Char.ofNat (if n < 10 then 48 + n else 87 + n)

/-- Two lowercase hex digits of a byte. -/
def byteHex (b : Nat) : List Char := [hexChar (b / 16), hexChar (b % 16)]

/-- `hashlib.md5(msg).hexdigest()`: the 32-character lowercase hex digest. -/
def md5hex (msg : List Nat) : String :=
  List.asString (((md5Digest msg).map byteHex).flatten)

/-- UTF-8 encoding of one character (Python str.encode()). -/
def utf8Bytes (c : Char) : List Nat :=
  let n := c.toNat
  if n < 128 then [n]
  else if n < 2048 then [192 + n / 64, 128 + n % 64]
  else if n < 65536 then [224 + n / 4096, 128 + n / 64 % 64, 128 + n % 64]
  else [240 + n / 262144, 128 + n / 4096 % 64, 128 + n / 64 % 64, 128 + n % 64]

/-- Python `s.encode()`: UTF-8 bytes of a string. -/
def strBytes (s : String) : List Nat := (s.toList.map utf8Bytes).flatten

/- ===================== schema_engine.truncate_name ===================== -/

/-- schema_engine.MAX_NAME_LENGTH. -/
def MAX_NAME_LENGTH : Nat := 110

/-- schema_engine.truncate_name (lines 7-24): identifiers of length at most
max_length are returned unchanged; longer ones are rebuilt as
"T_" ++ first 8 hex chars of the MD5 of the whole name ++ "_" ++ the last
(max_length - 10) characters of the name. -/
def truncate_name (name : String) (max_length : Nat := MAX_NAME_LENGTH) : String :=
  if name.length ≤ max_length then name
  else
    let hash_prefix_length := 10
    let available_for_name := max_length - hash_prefix_length
    let name_hash := (md5hex (strBytes name)).take 8
    "T_" ++ name_hash ++ "_" ++
      List.asString (name.toList.drop (name.length - available_for_name))

/- ===================== Termination weights for the work queues ===================== -/

mutual

/-- A weight on JSON values used to bound the length of the BFS traversals:
each queue iteration strictly decreases the total weight of the queue. -/
def jweight : Json → Nat
  | .arr xs => 1 + jweightArr xs
  | .obj kvs => 1 + jweightObj kvs
  | _ => 1

/-- Weight of an array's elements (2 extra units per element). -/
def jweightArr : List Json → Nat
  | [] => 0
  | x :: xs => 2 + jweight x + jweightArr xs

/-- Weight of an object's fields (1 extra unit per field). -/
def jweightObj : List (String × Json) → Nat
  | [] => 0
  | kv :: kvs => 1 + jweight kv.2 + jweightObj kvs

end

/-- Total weight of a list of JSON values. -/
def weightList (l : List Json) : Nat := (l.map jweight).sum

/- ===================== schema_engine data model ===================== -/

/-- schema_engine.ColumnSchema. -/
structure ColumnSchema where
  name : String
  type : String
  is_pk : Bool := false
  is_fk : Bool := false
  fk_table : Option String := none
  fk_column : Option String := none
deriving DecidableEq, Repr

/-- schema_engine.TableSchema. -/
structure TableSchema where
  name : String
  columns : List ColumnSchema
  is_root : Bool := false
deriving DecidableEq, Repr

/-- schema_engine.SchemaMap. -/
structure SchemaMap where
  tables : List TableSchema
deriving DecidableEq, Repr

/-- schema_engine.determine_sql_type (lines 42-52). -/
def determine_sql_type : Json → String
  | .bool _ => "BIT"
  | .int _ => "INT"
  | .float _ => "FLOAT"
  | .str _ => "NVARCHAR(MAX)"
  | _ => "NVARCHAR(MAX)"

/-- The column-type upgrade of analyze_json_structure (lines 149-157):
note that the membership tests are Python tuple membership, i.e. equality
with the literal strings "NVARCHAR" and "FLOAT". -/
def updateColType (curr new : String) : String :=
  if curr = new then curr
  else if curr = "NVARCHAR" ∨ new = "NVARCHAR" then "NVARCHAR(MAX)"
  else if curr = "FLOAT" ∨ new = "FLOAT" then "FLOAT"
  else curr

/-- Python str.lower() (ASCII, as exercised by identifier keys). -/
def pyLower (s : String) : String := String.mk (s.toList.map Char.toLower)

/-- Python `s.rsplit('_', 1)[0]`: everything before the last underscore,
or the whole string when it contains none. -/
def rsplitBase (s : String) : String :=
  match s.toList.reverse.findIdx? (fun c => c = '_') with
  | none => s
  | some i => List.asString (s.toList.take (s.length - 1 - i))

/-- `{"Value": item}` wrapping of a scalar list element (line 143). -/
def wrapValue (item : Json) : Json := .obj [("Value", item)]

/-- The child-table naming rule of the Analyzer
(schema_engine lines 123/132/139/190): `truncate_name(f"{parent}_{k}")`. -/
def analyzerChildName (parent k : String) : String :=
  truncate_name (parent ++ "_" ++ k)

/-- Accumulation into child_arrays (lines 124-126/133-135/140-143):
`child_arrays[k] = []` on first sight, then append/extend. -/
def caAdd (ca : List (String × List Json)) (k : String) (items : List Json) :
    List (String × List Json) :=
  match alookup ca k with
  | none => aset ca k items
  | some l => aset ca k (l ++ items)

/-- Processing of one key/value pair of a sampled object
(analyze_json_structure lines 112-157), updating (columns_map, child_arrays). -/
def scanField (acc : List (String × String) × List (String × List Json))
    (kv : String × Json) :
    List (String × String) × List (String × List Json) :=
  let (cm, ca) := acc
  let (k, v) := kv
  match v with
  | .null => (cm, ca)
  | .obj _ => (cm, caAdd ca k [v])
  | .arr xs =>
    match xs with
    | [] => (cm, ca)
    | x :: _ =>
      if x.isContainer then (cm, caAdd ca k xs)
      else (cm, caAdd ca k (xs.map wrapValue))
  | _ =>
    match alookup cm k with
    | none => (aset cm k (determine_sql_type v), ca)
    | some curr => (aset cm k (updateColType curr (determine_sql_type v)), ca)

/-- Processing of one sampled row (lines 108-157): non-dict rows are skipped. -/
def scanObj (acc : List (String × String) × List (String × List Json))
    (o : Json) :
    List (String × String) × List (String × List Json) :=
  match o with
  | .obj kvs => kvs.foldl scanField acc
  | _ => acc

/-- Column/child inference over the first 100 objects (lines 101-157). -/
def analyzeSample (objects : List Json) :
    List (String × String) × List (String × List Json) :=
  (objects.take 100).foldl scanObj ([], [])

/-- Column list construction (lines 159-180): synthetic PK first, then the
FK to the parent if any, then the sampled columns (with the `id`-rename). -/
def buildCols (parent_table_name : Option String)
    (columns_map : List (String × String)) : List ColumnSchema :=
  [{ name := "id", type := "INT IDENTITY(1,1)", is_pk := true }] ++
  (match parent_table_name with
   | some p =>
     [{ name := truncate_name (p ++ "_id"), type := "INT", is_fk := true,
        fk_table := some p, fk_column := some "id" }]
   | none => []) ++
  columns_map.map (fun kv =>
    if pyLower kv.1 = "id" then
      { name := "original_id", type := kv.2 : ColumnSchema }
    else
      { name := truncate_name kv.1, type := kv.2 : ColumnSchema })

/-- Work items of the Analyzer's queue: (table_name, list_of_objects, parent_table_name). -/
abbrev AItem := String × List Json × Option String

/-- Queue weight: the fuel handed to the loops; each iteration strictly
decreases it, so it bounds the number of iterations. -/
def queueMeasureA (q : List AItem) : Nat :=
  (q.map (fun it => weightList it.2.1 + 1)).sum

/-- The BFS loop of analyze_json_structure (lines 87-193). The fuel argument
makes the recursion structural; analyze_json_structure supplies fuel strictly
greater than the queue weight, which strictly decreases at each iteration,
so the fuel never runs out. -/
def analyzeLoop : Nat → List AItem → List String → List (String × TableSchema) →
    List (String × TableSchema)
  | _, [], _, tables => tables
  | 0, _, _, tables => tables
  | fuel + 1, (current_table_name, objects, parent_table_name) :: rest,
      processed, tables =>
    if objects.isEmpty then analyzeLoop fuel rest processed tables
    else if current_table_name ∈ processed then
      analyzeLoop fuel rest processed tables
    else
      let (columns_map, child_arrays) := analyzeSample objects
      let cols := buildCols parent_table_name columns_map
      let tables' := aset tables current_table_name
        { name := current_table_name, columns := cols,
          is_root := parent_table_name.isNone }
      let newItems := child_arrays.map (fun kv =>
        (analyzerChildName current_table_name kv.1, kv.2,
         some current_table_name))
      analyzeLoop fuel (rest ++ newItems) (current_table_name :: processed)
        tables'

/-- schema_engine.analyze_json_structure (lines 54-214), including the
single-root detection (lines 67-83) and the root-collapsing post-pass
(lines 195-212). -/
def analyze_json_structure (data : Json) (root_name : String := "Root") :
    SchemaMap :=
  let (queue, single_root) :
      List AItem × Bool :=
    match data with
    | .obj _ => ([(root_name, [data], none)], true)
    | .arr xs =>
      match xs with
      | [x] =>
        match x with
        | .obj _ => ([(root_name, [x], none)], true)
        | _ => ([(root_name, xs, none)], false)
      | _ => ([(root_name, xs, none)], false)
    | _ => ([], false)
  let tables := analyzeLoop (queueMeasureA queue + 1) queue [] []
  let result_tables := tables.map (fun kv => kv.2)
  if single_root ∧ (alookup tables root_name).isSome then
    SchemaMap.mk
      ((result_tables.filter (fun t => t.name ≠ root_name)).map (fun t =>
        if t.columns.any (fun c => c.is_fk && c.fk_table == some root_name) then
          { name := t.name,
            columns := t.columns.filter (fun c =>
              ¬(c.is_fk && c.fk_table == some root_name)),
            is_root := true }
        else
          { name := t.name, columns := t.columns, is_root := t.is_root }))
  else SchemaMap.mk result_tables

/- ===================== db_engine.flatten_data ===================== -/

/-- A materialized row: a Python dict from column name to value. -/
abbrev Row := List (String × Json)

/-- Work items of the Flattener's queue: (table_name, list_objects, parent_id). -/
abbrev FItem := String × List Json × Option Int

/-- The mutable state of flatten_data: flat_rows and id_counters. -/
structure FlatState where
  flatRows : List (String × List Row)
  idCounters : List (String × Int)
deriving Repr

/-- The child-table naming rule of the Flattener (db_engine line 87):
`f"{current_table_name}_{k}"` - with no truncation. -/
def flattenerChildName (parent k : String) : String := parent ++ "_" ++ k

/-- The start of a row (db_engine lines 73-81): `{"id": current_id}`, then,
when a parent id is carried (and truthy) and the heuristic column name
`schema.name.rsplit('_', 1)[0] + "_id"` occurs among the schema's columns,
the first fk-flagged column is set to the parent id. -/
def initRow (schema : TableSchema) (parent_id : Option Int) (current_id : Int) :
    Row :=
  let row : Row := [("id", Json.int current_id)]
  match parent_id with
  | none => row
  | some p =>
    if p ≠ 0 ∧
        schema.columns.any
          (fun c => c.name == rsplitBase schema.name ++ "_id") then
      match schema.columns.find? (fun c => c.is_fk) with
      | some fk_col => aset row fk_col.name (Json.int p)
      | none => row
    else row

/-- The field loop of flatten_data (lines 84-98): container fields enqueue a
child work item when the synthesized child name occurs in the schema map;
scalar fields are copied (after the `id` rename) only when the schema
declares the column. -/
def processFields (table_schemas : List (String × TableSchema))
    (schema : TableSchema) (tname : String) (current_id : Int) :
    Row × List FItem → List (String × Json) → Row × List FItem
  | acc, [] => acc
  | (row, items), (k, v) :: rest =>
    if v.isContainer then
      let child_table_name := flattenerChildName tname k
      if (alookup table_schemas child_table_name).isSome then
        let child_list := match v with | .arr xs => xs | _ => [v]
        processFields table_schemas schema tname current_id
          (row, items ++ [(child_table_name, child_list, some current_id)]) rest
      else processFields table_schemas schema tname current_id (row, items) rest
    else
      let col_name := if pyLower k = "id" then "original_id" else k
      if schema.columns.any (fun c => c.name == col_name) then
        processFields table_schemas schema tname current_id
          (aset row col_name v, items) rest
      else processFields table_schemas schema tname current_id (row, items) rest

/-- Processing of one object of a dequeued work item (lines 61-100):
non-dict elements are wrapped as `{"Value": obj}`; the object draws the next
id of its table's counter, its row starts from initRow, fields are copied /
children enqueued by processFields, and the finished row is appended.
The `none` branches of the two lookups are unreachable when the state's keys
cover the schema names (Python would raise KeyError there). -/
def processObj (table_schemas : List (String × TableSchema)) (tname : String)
    (schema : TableSchema) (parent_id : Option Int)
    (acc : FlatState × List FItem) (o : Json) : FlatState × List FItem :=
  let (st, items) := acc
  let fields := match o with | .obj kvs => kvs | _ => [("Value", o)]
  match alookup st.idCounters tname with
  | none => (st, items)
  | some current_id =>
    let counters' := aset st.idCounters tname (current_id + 1)
    let row0 := initRow schema parent_id current_id
    let (row, items') :=
      processFields table_schemas schema tname current_id (row0, items) fields
    match alookup st.flatRows tname with
    | none => ({ flatRows := st.flatRows, idCounters := counters' }, items')
    | some rs =>
      ({ flatRows := aset st.flatRows tname (rs ++ [row]),
         idCounters := counters' }, items')

/-- Queue weight for the Flattener's queue. -/
def queueMeasureF (q : List FItem) : Nat :=
  (q.map (fun it => weightList it.2.1 + 1)).sum

/-- The BFS loop of flatten_data (lines 56-100). As for analyzeLoop, the
fuel is supplied strictly greater than the queue weight, which strictly
decreases at each iteration, so it never runs out. -/
def flattenLoop (table_schemas : List (String × TableSchema)) :
    Nat → List FItem → FlatState → FlatState
  | _, [], st => st
  | 0, _, st => st
  | fuel + 1, (current_table_name, objects, parent_id) :: rest, st =>
    match alookup table_schemas current_table_name with
    | none => flattenLoop table_schemas fuel rest st
    | some schema =>
      let (st', items) := objects.foldl
        (processObj table_schemas current_table_name schema parent_id)
        (st, [])
      flattenLoop table_schemas fuel (rest ++ items) st'

/-- db_engine.flatten_data (lines 34-102). -/
def flatten_data (schema_map : SchemaMap) (json_data : Json) :
    List (String × List Row) :=
  let table_schemas :=
    schema_map.tables.foldl (fun m t => aset m t.name t) []
  let flat_rows :=
    schema_map.tables.foldl (fun m t => aset m t.name ([] : List Row)) []
  let id_counters :=
    schema_map.tables.foldl (fun m t => aset m t.name (1 : Int)) []
  match schema_map.tables.find? (fun t => t.is_root) with
  | none => []
  | some root_table =>
    let queue : List FItem :=
      match json_data with
      | .obj _ => [(root_table.name, [json_data], none)]
      | .arr xs => [(root_table.name, xs, none)]
      | _ => []
    (flattenLoop table_schemas (queueMeasureF queue + 1) queue
      { flatRows := flat_rows, idCounters := id_counters }).flatRows

/- ===================== db_engine.sync_to_db: load-order computation ===================== -/

/-- The placement test of sync_to_db (lines 120-121): a pending table is
placed when it has no fk-flagged column, or its first fk-flagged column's
target is already among the placed tables' names, or that target is not a
name of the schema map at all (Python `None in [...]` is False, so a missing
fk_table also counts as outside the known set). -/
def placeable (allNames : List String) (sorted : List TableSchema)
    (t : TableSchema) : Bool :=
  match t.columns.find? (fun c => c.is_fk) with
  | none => true
  | some fk_col =>
    match fk_col.fk_table with
    | none => true
    | some n => (sorted.map (fun st => st.name)).contains n ||
        !(allNames.contains n)

/-- One pass of the ordering loop (lines 117-124): iterate over a snapshot of
pending, appending each placeable table to sorted and removing its first
occurrence from pending (Python list.remove). -/
def sortPass (allNames : List String) :
    List TableSchema → List TableSchema × List TableSchema →
    List TableSchema × List TableSchema
  | [], acc => acc
  | t :: snap, (sorted, pending) =>
    if placeable allNames sorted t then
      sortPass allNames snap (sorted ++ [t], pending.erase t)
    else sortPass allNames snap (sorted, pending)

/-- The outer ordering loop (lines 114-128): repeat passes while progress is
made (equivalently: while the pass shrank pending); on a pass without
progress append the remaining tables as-is. The fuel (tables.length + 1)
never runs out since pending strictly shrinks before each recursion. -/
def sortLoop (allNames : List String) :
    Nat → List TableSchema → List TableSchema → List TableSchema
  | _, sorted, [] => sorted
  | 0, sorted, pending => sorted ++ pending
  | fuel + 1, sorted, pending =>
    let (s', p') := sortPass allNames pending (sorted, pending)
    if p'.length < pending.length then sortLoop allNames fuel s' p'
    else s' ++ p'

/-- The dependency ordering computed by db_engine.sync_to_db (lines 112-128)
before any database I/O: parents first, best-effort on cycles. -/
def sortTables (tables : List TableSchema) : List TableSchema :=
  sortLoop (tables.map (fun t => t.name)) (tables.length + 1) [] tables

/- ===================== Concrete inputs for the claims ===================== -/

set_option maxRecDepth 10000

/-- The single-root-object input of C1: `{"items":[{"sku":"A1"},{"sku":"A2"}]}`. -/
def C1input : Json :=
  .obj [("items", .arr [.obj [("sku", .str "A1")], .obj [("sku", .str "A2")]])]

/-- The flat-object input of C2: `{"sku":"A1","qty":2}`. -/
def C2input : Json := .obj [("sku", .str "A1"), ("qty", .int 2)]

/-- A two-row list whose column "v" samples an int then a string (C7). -/
def C7input : Json := .arr [.obj [("v", .int 1)], .obj [("v", .str "x")]]

/-- A 130-character name (C3, C4). -/
def s130 : String := String.mk (List.replicate 130 'a')

/-- A 125-character key, so that "Root_" ++ k125 has 130 characters (C5). -/
def k125 : String := String.mk (List.replicate 125 'x')

/-- Input whose root objects hold the long key k125 (C5); two elements, so no
root-collapsing interferes. -/
def jC5 : Json := .arr [.obj [(k125, .obj [("a", .int 1)])], .obj []]

/-- Schema for C6: root table "A" and child table "A_b_c" (key with an
underscore) declaring the foreign-key column "A_id" referencing "A". -/
def smC6 : SchemaMap := SchemaMap.mk
  [{ name := "A",
     columns := [{ name := "id", type := "INT", is_pk := true }],
     is_root := true },
   { name := "A_b_c",
     columns := [{ name := "id", type := "INT", is_pk := true },
       { name := "A_id", type := "INT", is_fk := true, fk_table := some "A",
         fk_column := some "id" }] }]

/-- Input for C6: one root row whose key "b_c" holds a child object. -/
def jC6 : Json := .arr [.obj [("b_c", .obj [("z", .int 9)])]]

/-- Adversarial schema for C9: the child table's fk-flagged column is named
"id", so the Flattener overwrites the synthetic key with the parent key. -/
def smC9 : SchemaMap := SchemaMap.mk
  [{ name := "A",
     columns := [{ name := "id", type := "INT", is_pk := true }],
     is_root := true },
   { name := "A_k",
     columns := [{ name := "A_id", type := "INT" },
       { name := "id", type := "INT", is_fk := true, fk_table := some "A",
         fk_column := some "id" }] }]

/-- Input for C9: the second root row (id 2) carries the child object. -/
def jC9 : Json := .arr [.obj [("k", .int 1)], .obj [("k", .obj [])]]

/- ===================== C1 ===================== -/

/-- C1: for `{"items":[{"sku":"A1"},{"sku":"A2"}]}` the Analyzer does
root-collapse to a single root table Root_items with columns id, sku(TEXT),
as the claim states; but flatten_data on that SchemaMap and the same input
produces exactly ONE row, `{"id": 1}` (the whole root object, whose `items`
field is silently dropped because the Flattener's synthesized child name
`Root_items_items` is not in the schema), not two rows with keys 1 and 2:
the Flattener never replays root-collapsing. -/
theorem C1_single_root_pipeline_divergence :
    analyze_json_structure C1input "Root" = SchemaMap.mk
      [{ name := "Root_items",
         columns := [{ name := "id", type := "INT IDENTITY(1,1)",
                       is_pk := true },
                     { name := "sku", type := "NVARCHAR(MAX)" }],
         is_root := true }] ∧
    flatten_data (analyze_json_structure C1input "Root") C1input =
      [("Root_items", [[("id", Json.int 1)]])] :=
  ⟨rfl, rfl⟩

/- ===================== C2 ===================== -/

/-- C2 counterexample: for `{"sku":"A1","qty":2}` the SchemaMap does NOT
contain a single root table - root-collapsing removes the synthetic root
(which had no children), leaving no tables at all. -/
theorem C2_counterexample :
    (analyze_json_structure C2input "Root").tables.length ≠ 1 := by decide

/-- C2 amended: for `{"sku":"A1","qty":2}`, analyze_json_structure returns an
empty SchemaMap (the collapsed root's scalar fields are dropped, and there
are no child tables to promote), and flatten_data on that SchemaMap returns
the empty mapping (no table is marked as root). -/
theorem C2_amended_empty_schema :
    (analyze_json_structure C2input "Root").tables = [] ∧
    flatten_data (analyze_json_structure C2input "Root") C2input = [] :=
  ⟨rfl, rfl⟩

/- ===================== C3 ===================== -/

/-- C3: truncating a 130-character name yields a string of length 111, not
110: the code reserves 10 characters for a prefix that actually occupies 11
("T_" ++ 8 hash chars ++ "_"), so the result exceeds max_length by one.
(The result does begin with the letter T, and names of length at most 110
are returned unchanged by the first branch of truncate_name.) -/
theorem C3_truncate_overlong_length :
    (truncate_name s130).length = 111 ∧ (truncate_name s130).take 2 = "T_" :=
  ⟨by rfl, by rfl⟩

/- ===================== C4 ===================== -/

/-- C4: truncate_name is not idempotent: the 111-character result of
truncating a 130-character name is itself longer than 110, so a second
application truncates again, with a different MD5 hash prefix. -/
theorem C4_truncate_not_idempotent :
    truncate_name (truncate_name s130) ≠ truncate_name s130 := by decide

/- ===================== C7 ===================== -/

/-- C7: a text sample does not force TEXT. For the column "v" sampled as the
int 1 and then the string "x", the inferred type stays INT: the upgrade test
`"NVARCHAR" in (curr, new)` is Python tuple membership, and neither "INT"
nor "NVARCHAR(MAX)" equals "NVARCHAR", so the text branch never fires
(contradicting the code's own comment "INT -> FLOAT -> STRING"). -/
theorem C7_text_sample_does_not_force_text :
    (analyze_json_structure C7input "Root").tables.map
        (fun t => t.columns.map (fun c => (c.name, c.type))) =
      [[("id", "INT IDENTITY(1,1)"), ("v", "INT")]] ∧
    updateColType "INT" "NVARCHAR(MAX)" = "INT" ∧
    updateColType "BIT" "INT" = "BIT" :=
  ⟨rfl, rfl, rfl⟩

/- ===================== C5 ===================== -/

/-- C5 counterexample: the Analyzer sanitizes child-table names
(truncate_name(f"{parent}_{k}")) but the Flattener looks up the raw
f"{parent}_{k}"; for a 130-character synthesized name the two differ, and
the rows for the analyzed child table are lost: on the C5 input the table
stored by the Analyzer ends up with an empty row list. -/
theorem C5_counterexample :
    analyzerChildName "Root" k125 ≠ flattenerChildName "Root" k125 ∧
    alookup (flatten_data (analyze_json_structure jC5 "Root") jC5)
        (analyzerChildName "Root" k125) = some [] :=
  ⟨by decide, rfl⟩

/- ===================== C6 ===================== -/

/-- C6 counterexample: table "A_b_c" declares the foreign-key column "A_id",
and its work item carries the parent key 1, but the produced row has no
foreign-key field at all: the guard checks for a column named
`schema.name.rsplit('_', 1)[0] + "_id"` = "A_b_id", which does not exist
because the key "b_c" contains an underscore. -/
theorem C6_counterexample :
    alookup (flatten_data smC6 jC6) "A_b_c" = some [[("id", Json.int 1)]] ∧
    alookup [("id", Json.int 1)] "A_id" = (none : Option Json) :=
  ⟨rfl, rfl⟩

/- ===================== C9 counterexample ===================== -/

/-- C9 counterexample: for a SchemaMap whose fk-flagged column is named "id",
the Flattener overwrites the synthetic key with the parent's key: table
"A_k" gets the single row {"id": 2}, so its keys are not 1..N. -/
theorem C9_counterexample :
    alookup (flatten_data smC9 jC9) "A_k" = some [[("id", Json.int 2)]] ∧
    Json.int 2 ≠ Json.int 1 :=
  ⟨rfl, by simp⟩

/- ===================== Association list lemmas ===================== -/

/-- alookup after aset: the written key reads back the value, others are
unchanged. -/
theorem alookup_aset {β : Type} (m : List (String × β)) (k n : String) (v : β) :
    alookup (aset m k v) n = if k = n then some v else alookup m n := by
  induction m with
  | nil =>
    simp only [aset, alookup]
  | cons kv rest ih =>
    obtain ⟨k', v'⟩ := kv
    simp only [aset]
    by_cases h1 : k' = k
    · subst h1
      rw [if_pos rfl]
      simp only [alookup]
      by_cases h2 : k' = n
      · simp [h2]
      · simp [h2]
    · rw [if_neg h1]
      simp only [alookup]
      by_cases h2 : k' = n
      · subst h2
        rw [if_pos rfl, if_pos rfl, if_neg (fun hh : k = k' => h1 hh.symm)]
      · rw [if_neg h2, if_neg h2, ih]

/-- alookup after aset at the written key. -/
theorem alookup_aset_self {β : Type} (m : List (String × β)) (k : String)
    (v : β) : alookup (aset m k v) k = some v := by
  simp [alookup_aset]

/-- alookup after aset at another key. -/
theorem alookup_aset_ne {β : Type} (m : List (String × β)) (k n : String)
    (v : β) (h : k ≠ n) : alookup (aset m k v) n = alookup m n := by
  simp [alookup_aset, h]

/- ===================== C5: amended ===================== -/

/-- C5 amended: the Analyzer's and the Flattener's child-table naming rules
agree exactly on every parent/key pair whose synthesized name has at most
110 characters (truncate_name then returns it unchanged); for longer names
they differ (see the C5 counterexample), so such child rows are silently
dropped rather than landing in the schema's table. -/
theorem C5_amended_names_agree (parent k : String)
    (h : (parent ++ "_" ++ k).length ≤ 110) :
    analyzerChildName parent k = flattenerChildName parent k := by
  have h' : (parent ++ "_" ++ k).length ≤ MAX_NAME_LENGTH := h
  unfold analyzerChildName flattenerChildName truncate_name
  rw [if_pos h']

/-- Witness for C5_amended_names_agree at parent "Root", key "items". -/
theorem C5_amended_names_agree_witness :
    analyzerChildName "Root" "items" = flattenerChildName "Root" "items" :=
  C5_amended_names_agree "Root" "items" (by decide)

/- ===================== C6: amended ===================== -/

/-- The column name a scalar field k is copied to (db_engine lines 93-95). -/
def scalarColName (k : String) : String :=
  if pyLower k = "id" then "original_id" else k

/-- processFields never changes the row at a key that no scalar field of the
object maps to. -/
theorem processFields_alookup_unwritten
    (table_schemas : List (String × TableSchema)) (schema : TableSchema)
    (tname : String) (current_id : Int) (key : String) :
    ∀ (fields : List (String × Json)) (row : Row) (items : List FItem),
      (∀ kv ∈ fields, kv.2.isContainer = false → scalarColName kv.1 ≠ key) →
      alookup (processFields table_schemas schema tname current_id
        (row, items) fields).1 key = alookup row key := by
  intro fields
  induction fields with
  | nil => intro row items _; rfl
  | cons kv rest ih =>
    intro row items hno
    obtain ⟨k, v⟩ := kv
    have hrest : ∀ kv ∈ rest, kv.2.isContainer = false →
        scalarColName kv.1 ≠ key :=
      fun kv h => hno kv (List.mem_cons_of_mem _ h)
    simp only [processFields]
    split
    · split
      · exact ih _ _ hrest
      · exact ih _ _ hrest
    · rename_i hcont
      have hc' : v.isContainer = false := by
        cases hv : v.isContainer
        · rfl
        · exact absurd hv hcont
      have hkey : scalarColName k ≠ key :=
        hno (k, v) (List.mem_cons_self _ _) hc'
      split
      · rename_i hlow
        split
        · rw [ih _ _ hrest]
          refine alookup_aset_ne _ _ _ _ ?_
          simpa [scalarColName, hlow] using hkey
        · exact ih _ _ hrest
      · rename_i hlow
        split
        · rw [ih _ _ hrest]
          refine alookup_aset_ne _ _ _ _ ?_
          simpa [scalarColName, hlow] using hkey
        · exact ih _ _ hrest

/-- C6 amended: when a dequeued work item carries a (nonzero) parent key, the
schema's heuristic column name `schema.name.rsplit('_', 1)[0] + "_id"` does
occur among the table's columns, the schema declares a (first) fk-flagged
column, and no scalar field of the object collides with that column's name,
then the produced row maps the foreign-key column to the parent's key.
(The C6 counterexample shows the claim fails without the heuristic proviso.) -/
theorem C6_amended_fk_assignment (table_schemas : List (String × TableSchema))
    (schema : TableSchema) (tname : String) (p current_id : Int)
    (fields : List (String × Json)) (items : List FItem)
    (fk_col : ColumnSchema)
    (hp : p ≠ 0)
    (hheur : schema.columns.any
      (fun c => c.name == rsplitBase schema.name ++ "_id") = true)
    (hfk : schema.columns.find? (fun c => c.is_fk) = some fk_col)
    (hnocol : ∀ kv ∈ fields, kv.2.isContainer = false →
      scalarColName kv.1 ≠ fk_col.name) :
    alookup (processFields table_schemas schema tname current_id
      (initRow schema (some p) current_id, items) fields).1 fk_col.name =
      some (Json.int p) := by
  rw [processFields_alookup_unwritten table_schemas schema tname current_id
    fk_col.name fields _ items hnocol]
  simp only [initRow]
  rw [if_pos ⟨hp, hheur⟩, hfk]
  exact alookup_aset_self _ _ _

/-- A schema for the C6 witness: table "A_b" with fk column "A_id"
(the heuristic name rsplit gives "A", and "A_id" is declared). -/
def tC6W : TableSchema :=
  { name := "A_b",
    columns := [{ name := "id", type := "INT", is_pk := true },
      { name := "A_id", type := "INT", is_fk := true, fk_table := some "A",
        fk_column := some "id" }] }

/-- Witness for C6_amended_fk_assignment: parent key 3, one scalar field x. -/
theorem C6_amended_fk_assignment_witness :
    alookup (processFields [] tC6W "A_b" 7
      (initRow tC6W (some 3) 7, []) [("x", Json.int 5)]).1 "A_id" =
      some (Json.int 3) :=
  C6_amended_fk_assignment [] tC6W "A_b" 3 7 [("x", Json.int 5)] []
    { name := "A_id", type := "INT", is_fk := true, fk_table := some "A",
      fk_column := some "id" }
    (by decide) (by decide) (by rfl) (by decide)

/- ===================== C10: key set of flatten_data ===================== -/

/-- Keys of the maps built by the initial dict comprehensions of flatten_data
(lines 36-42): exactly the table names. -/
theorem alookup_fold_aset_isSome {β : Type} (f : TableSchema → β) :
    ∀ (tables : List TableSchema) (m : List (String × β)) (n : String),
      (alookup (tables.foldl (fun m t => aset m t.name (f t)) m) n).isSome ↔
        (n ∈ tables.map (fun t => t.name) ∨ (alookup m n).isSome) := by
  intro tables
  induction tables with
  | nil => simp
  | cons t ts ih =>
    intro m n
    simp only [List.foldl_cons, List.map_cons, List.mem_cons]
    rw [ih]
    rw [alookup_aset]
    by_cases he : t.name = n
    · simp [he]
    · rw [if_neg he]
      have hne : ¬(n = t.name) := fun hh => he hh.symm
      tauto

/-- processObj does not create or delete flat_rows keys (it only rewrites the
value at a key that is already present). -/
theorem processObj_flatRows_isSome (ts : List (String × TableSchema))
    (tname : String) (schema : TableSchema) (pid : Option Int) (o : Json)
    (st : FlatState) (items : List FItem) (n : String) :
    (alookup (processObj ts tname schema pid (st, items) o).1.flatRows n).isSome =
      (alookup st.flatRows n).isSome := by
  simp only [processObj]
  cases hc : alookup st.idCounters tname with
  | none => rfl
  | some current_id =>
    simp only []
    cases hr : alookup st.flatRows tname with
    | none => rfl
    | some rs =>
      simp only []
      rw [alookup_aset]
      by_cases he : tname = n
      · subst he
        rw [if_pos rfl, hr]
        rfl
      · rw [if_neg he]

/-- The object fold of one dequeued item preserves the flat_rows key set. -/
theorem foldl_processObj_flatRows_isSome (ts : List (String × TableSchema))
    (tname : String) (schema : TableSchema) (pid : Option Int) :
    ∀ (objs : List Json) (st : FlatState) (items : List FItem) (n : String),
      (alookup ((objs.foldl (processObj ts tname schema pid)
        (st, items)).1.flatRows) n).isSome = (alookup st.flatRows n).isSome := by
  intro objs
  induction objs with
  | nil => intro st items n; rfl
  | cons o os ih =>
    intro st items n
    rw [List.foldl_cons]
    rw [show processObj ts tname schema pid (st, items) o =
      ((processObj ts tname schema pid (st, items) o).1,
       (processObj ts tname schema pid (st, items) o).2) from rfl]
    rw [ih _ _ n, processObj_flatRows_isSome]

/-- The whole BFS loop of flatten_data preserves the flat_rows key set. -/
theorem flattenLoop_flatRows_isSome (ts : List (String × TableSchema)) :
    ∀ (fuel : Nat) (queue : List FItem) (st : FlatState) (n : String),
      (alookup (flattenLoop ts fuel queue st).flatRows n).isSome =
        (alookup st.flatRows n).isSome := by
  intro fuel
  induction fuel with
  | zero => intro queue st n; cases queue <;> rfl
  | succ fuel ih =>
    intro queue st n
    cases queue with
    | nil => rfl
    | cons item rest =>
      obtain ⟨tname, objs, pid⟩ := item
      simp only [flattenLoop]
      cases hs : alookup ts tname with
      | none => rw [ih]
      | some schema =>
        simp only []
        rw [show (objs.foldl (processObj ts tname schema pid) (st, [])) =
          ((objs.foldl (processObj ts tname schema pid) (st, [])).1,
           (objs.foldl (processObj ts tname schema pid) (st, [])).2) from rfl]
        rw [ih, foldl_processObj_flatRows_isSome]

/-- C10: flatten_data returns the empty mapping when no table is marked as
root; otherwise the key set of the returned mapping is exactly the set of
table names of the SchemaMap (tables with no traversed rows keep their
initial empty row list). -/
theorem C10_flatten_keyset (sm : SchemaMap) (j : Json) :
    (sm.tables.find? (fun t => t.is_root) = none → flatten_data sm j = []) ∧
    ((sm.tables.find? (fun t => t.is_root)).isSome →
      ∀ n, (alookup (flatten_data sm j) n).isSome ↔
        n ∈ sm.tables.map (fun t => t.name)) := by
  constructor
  · intro h
    simp [flatten_data, h]
  · intro h n
    obtain ⟨root, hroot⟩ := Option.isSome_iff_exists.mp h
    simp only [flatten_data, hroot]
    rw [flattenLoop_flatRows_isSome]
    have hfold := alookup_fold_aset_isSome (fun _ => ([] : List Row))
      sm.tables [] n
    simp only [alookup, Option.isSome_none, Bool.false_eq_true, or_false] at hfold
    exact hfold

/-- A rootless schema and a rooted schema for the C10 witness. -/
def smW10 : SchemaMap := SchemaMap.mk [{ name := "B", columns := [] }]

/-- One-root-table schema for the C10 witness. -/
def smW10R : SchemaMap := SchemaMap.mk
  [{ name := "A", columns := [{ name := "id", type := "INT", is_pk := true }],
     is_root := true }]

/-- Witness for C10_flatten_keyset: both halves at concrete schemas. -/
theorem C10_flatten_keyset_witness :
    flatten_data smW10 (Json.int 0) = [] ∧
    ((alookup (flatten_data smW10R (Json.int 0)) "A").isSome ↔
      "A" ∈ smW10R.tables.map (fun t => t.name)) :=
  ⟨(C10_flatten_keyset smW10 (Json.int 0)).1 rfl,
   (C10_flatten_keyset smW10R (Json.int 0)).2 (by rfl) "A"⟩

/- ===================== C9: amended (ids are 1..N) ===================== -/

/-- The scalar-copy column name is never "id" (an `id`-cased key is renamed
to original_id, any other key differs from "id" outright). -/
theorem scalarColName_ne_id (k : String) : scalarColName k ≠ "id" := by
  unfold scalarColName
  split
  · decide
  · rename_i h
    intro hk
    subst hk
    exact h (by decide)

/-- The row built by initRow always maps "id" to the current id, provided no
fk-flagged column of the schema is named "id". -/
theorem initRow_id (schema : TableSchema) (pid : Option Int) (cid : Int)
    (h : ∀ c ∈ schema.columns, c.is_fk = true → c.name ≠ "id") :
    alookup (initRow schema pid cid) "id" = some (Json.int cid) := by
  cases pid with
  | none => rfl
  | some p =>
    simp only [initRow]
    split
    · cases hf : schema.columns.find? (fun c => c.is_fk) with
      | none => rfl
      | some fk_col =>
        have hmem := List.mem_of_find?_eq_some hf
        have hfk : fk_col.is_fk = true := by
          have := List.find?_some hf
          simpa using this
        rw [alookup_aset_ne _ _ _ _ (h fk_col hmem hfk)]
        rfl
    · rfl

/-- The invariant of flatten_data's loop: per table name, the id counter is
one past the number of rows gathered so far, and the gathered rows carry the
synthetic keys 1..N in order. -/
def flatInv (st : FlatState) : Prop :=
  ∀ n, (alookup st.flatRows n = none → alookup st.idCounters n = none) ∧
    ∀ rs, alookup st.flatRows n = some rs →
      alookup st.idCounters n = some ((rs.length : Int) + 1) ∧
      rs.map (fun r => alookup r "id") =
        (List.range rs.length).map (fun (i : Nat) => some (Json.int ((i : Int) + 1)))

/-- Appending a row carrying the next id preserves the invariant. -/
theorem flatInv_step (st : FlatState) (tname : String) (rs : List Row)
    (row : Row) (cid : Int)
    (hr : alookup st.flatRows tname = some rs)
    (hinv : flatInv st)
    (hcid : cid = (rs.length : Int) + 1)
    (hrow : alookup row "id" = some (Json.int cid)) :
    flatInv { flatRows := aset st.flatRows tname (rs ++ [row]),
              idCounters := aset st.idCounters tname (cid + 1) } := by
  intro n
  by_cases he : tname = n
  · subst he
    constructor
    · rw [alookup_aset_self]
      intro h
      exact Option.noConfusion h
    · intro rs' hrs'
      rw [alookup_aset_self] at hrs'
      have hrs'' : rs' = rs ++ [row] := (Option.some.inj hrs').symm
      subst hrs''
      constructor
      · rw [alookup_aset_self]
        congr 1
        simp only [List.length_append, List.length_singleton]
        push_cast
        omega
      · obtain ⟨-, hids⟩ := (hinv tname).2 rs hr
        simp only [List.length_append, List.length_singleton]
        rw [List.map_append, hids]
        rw [List.range_succ, List.map_append]
        simp only [List.map_cons, List.map_nil]
        rw [hrow, hcid]
  · constructor
    · rw [alookup_aset_ne _ _ _ _ he, alookup_aset_ne _ _ _ _ he]
      exact (hinv n).1
    · intro rs' h
      rw [alookup_aset_ne _ _ _ _ he] at h
      rw [alookup_aset_ne _ _ _ _ he]
      exact (hinv n).2 rs' h

/-- processObj preserves the invariant, provided the schema in use has no
fk-flagged column named "id". -/
theorem processObj_flatInv (ts : List (String × TableSchema)) (tname : String)
    (schema : TableSchema) (pid : Option Int)
    (hschema : ∀ c ∈ schema.columns, c.is_fk = true → c.name ≠ "id")
    (o : Json) (st : FlatState) (items : List FItem)
    (hinv : flatInv st) :
    flatInv (processObj ts tname schema pid (st, items) o).1 := by
  simp only [processObj]
  cases hc : alookup st.idCounters tname with
  | none => exact hinv
  | some current_id =>
    cases hr : alookup st.flatRows tname with
    | none =>
      have h0 := (hinv tname).1 hr
      rw [h0] at hc
      exact Option.noConfusion hc
    | some rs =>
      obtain ⟨hcnt, -⟩ := (hinv tname).2 rs hr
      have hcid : current_id = (rs.length : Int) + 1 :=
        Option.some.inj (hc.symm.trans hcnt)
      apply flatInv_step st tname rs _ current_id hr hinv hcid
      rw [processFields_alookup_unwritten ts schema tname current_id "id" _ _
        items (fun kv _ _ => scalarColName_ne_id kv.1)]
      exact initRow_id schema pid current_id hschema

/-- The object fold of one dequeued item preserves the invariant. -/
theorem foldl_processObj_flatInv (ts : List (String × TableSchema))
    (tname : String) (schema : TableSchema) (pid : Option Int)
    (hschema : ∀ c ∈ schema.columns, c.is_fk = true → c.name ≠ "id") :
    ∀ (objs : List Json) (st : FlatState) (items : List FItem),
      flatInv st →
      flatInv ((objs.foldl (processObj ts tname schema pid) (st, items)).1) := by
  intro objs
  induction objs with
  | nil => intro st items h; exact h
  | cons o os ih =>
    intro st items h
    rw [List.foldl_cons]
    rw [show processObj ts tname schema pid (st, items) o =
      ((processObj ts tname schema pid (st, items) o).1,
       (processObj ts tname schema pid (st, items) o).2) from rfl]
    exact ih _ _ (processObj_flatInv ts tname schema pid hschema o st items h)

/-- The whole loop preserves the invariant, provided no schema stored in the
schema map has an fk-flagged column named "id". -/
theorem flattenLoop_flatInv (ts : List (String × TableSchema))
    (hts : ∀ n t, alookup ts n = some t →
      ∀ c ∈ t.columns, c.is_fk = true → c.name ≠ "id") :
    ∀ (fuel : Nat) (queue : List FItem) (st : FlatState),
      flatInv st → flatInv (flattenLoop ts fuel queue st) := by
  intro fuel
  induction fuel with
  | zero => intro queue st h; cases queue <;> exact h
  | succ fuel ih =>
    intro queue st h
    cases queue with
    | nil => exact h
    | cons item rest =>
      obtain ⟨tname, objs, pid⟩ := item
      simp only [flattenLoop]
      cases hs : alookup ts tname with
      | none => exact ih _ _ h
      | some schema =>
        exact ih _ _
          (foldl_processObj_flatInv ts tname schema pid (hts tname schema hs)
            objs st [] h)

/-- Values stored by the table_schemas comprehension come from the table list. -/
theorem alookup_fold_aset_mem (tables : List TableSchema) :
    ∀ (m : List (String × TableSchema)) (n : String) (t : TableSchema),
      alookup (tables.foldl (fun m t => aset m t.name t) m) n = some t →
      t ∈ tables ∨ alookup m n = some t := by
  induction tables with
  | nil => intro m n t h; exact Or.inr h
  | cons tt ts ih =>
    intro m n t h
    rw [List.foldl_cons] at h
    rcases ih _ _ _ h with h1 | h1
    · exact Or.inl (List.mem_cons_of_mem _ h1)
    · rw [alookup_aset] at h1
      by_cases he : tt.name = n
      · rw [if_pos he] at h1
        have : tt = t := Option.some.inj h1
        exact Or.inl (this ▸ List.mem_cons_self _ _)
      · rw [if_neg he] at h1
        exact Or.inr h1

/-- The initial state of flatten_data satisfies the invariant. -/
theorem init_flatInv (tables : List TableSchema) :
    flatInv { flatRows :=
                tables.foldl (fun m t => aset m t.name ([] : List Row)) [],
              idCounters :=
                tables.foldl (fun m t => aset m t.name (1 : Int)) [] } := by
  have key : ∀ (tables : List TableSchema) (m1 : List (String × List Row))
      (m2 : List (String × Int)) (n : String),
      ((alookup m1 n = none ∧ alookup m2 n = none) ∨
       (alookup m1 n = some [] ∧ alookup m2 n = some 1)) →
      ((alookup (tables.foldl (fun m t => aset m t.name []) m1) n = none ∧
        alookup (tables.foldl (fun m t => aset m t.name 1) m2) n = none) ∨
       (alookup (tables.foldl (fun m t => aset m t.name []) m1) n = some [] ∧
        alookup (tables.foldl (fun m t => aset m t.name 1) m2) n = some 1)) := by
    intro tables
    induction tables with
    | nil => intro m1 m2 n h; exact h
    | cons t ts ih =>
      intro m1 m2 n h
      rw [List.foldl_cons, List.foldl_cons]
      apply ih
      by_cases he : t.name = n
      · right
        constructor <;> rw [alookup_aset, if_pos he]
      · rw [alookup_aset_ne _ _ _ _ he, alookup_aset_ne _ _ _ _ he]
        exact h
  intro n
  rcases key tables [] [] n (Or.inl ⟨rfl, rfl⟩) with ⟨h1, h2⟩ | ⟨h1, h2⟩
  · constructor
    · intro _; exact h2
    · intro rs hrs
      rw [h1] at hrs
      exact Option.noConfusion hrs
  · constructor
    · intro hh
      rw [h1] at hh
      exact Option.noConfusion hh
    · intro rs hrs
      rw [h1] at hrs
      have : rs = [] := (Option.some.inj hrs).symm
      subst this
      constructor
      · rw [h2]
        rfl
      · rfl

/-- C9 amended: for every JSON input and every SchemaMap none of whose
fk-flagged columns is named "id" (true of every Analyzer-produced schema,
whose fk columns are named `<parent>_id`), the synthetic keys within each
table of the mapping returned by flatten_data are exactly the contiguous
integers 1..N in traversal order. (The C9 counterexample shows the proviso
is needed: an fk column literally named "id" overwrites the synthetic key.) -/
theorem C9_amended_ids_contiguous (sm : SchemaMap) (j : Json)
    (hfk : ∀ t ∈ sm.tables, ∀ c ∈ t.columns, c.is_fk = true → c.name ≠ "id") :
    ∀ n rs, alookup (flatten_data sm j) n = some rs →
      rs.map (fun r => alookup r "id") =
        (List.range rs.length).map (fun (i : Nat) => some (Json.int ((i : Int) + 1))) := by
  intro n rs h
  simp only [flatten_data] at h
  cases hroot : sm.tables.find? (fun t => t.is_root) with
  | none =>
    rw [hroot] at h
    exact Option.noConfusion h
  | some root =>
    rw [hroot] at h
    have hts : ∀ n t,
        alookup (sm.tables.foldl (fun m t => aset m t.name t) []) n = some t →
        ∀ c ∈ t.columns, c.is_fk = true → c.name ≠ "id" := by
      intro n t ht
      rcases alookup_fold_aset_mem sm.tables [] n t ht with hmem | habs
      · exact hfk t hmem
      · exact Option.noConfusion habs
    exact ((flattenLoop_flatInv _ hts _ _ _ (init_flatInv sm.tables) n).2
      rs h).2

/-- One-root-table schema for the C9 witness. -/
def smW9 : SchemaMap := SchemaMap.mk
  [{ name := "A", columns := [{ name := "id", type := "INT", is_pk := true }],
     is_root := true }]

/-- Two empty root objects for the C9 witness. -/
def jW9 : Json := .arr [.obj [], .obj []]

/-- Witness for C9_amended_ids_contiguous: table "A" gets rows with ids 1, 2. -/
theorem C9_amended_ids_contiguous_witness :
    [[("id", Json.int 1)], [("id", Json.int 2)]].map (fun r => alookup r "id") =
      (List.range 2).map (fun (i : Nat) => some (Json.int ((i : Int) + 1))) :=
  C9_amended_ids_contiguous smW9 jW9 (by decide) "A"
    [[("id", Json.int 1)], [("id", Json.int 2)]] (by rfl)

/- ===================== C8: load order respects first foreign keys ===================== -/

/-- The names of a list of tables. -/
def namesOf (l : List TableSchema) : List String := l.map (fun t => t.name)

/-- The ordering property maintained by the placement loop: whenever a placed
table's first fk-flagged column targets a known table name, a table of that
name occurs strictly earlier in the placed list. -/
def fkOrdered (allN : List String) (sorted : List TableSchema) : Prop :=
  ∀ (j : Nat) (t : TableSchema) (fk_col : ColumnSchema) (n : String),
    sorted[j]? = some t →
    t.columns.find? (fun c => c.is_fk) = some fk_col →
    fk_col.fk_table = some n → n ∈ allN →
    ∃ (i : Nat) (u : TableSchema), i < j ∧ sorted[i]? = some u ∧ u.name = n

/-- Placing a placeable table at the end preserves the ordering property. -/
theorem fkOrdered_append (allN : List String) (sorted : List TableSchema)
    (t : TableSchema) (h : fkOrdered allN sorted)
    (hp : placeable allN sorted t = true) : fkOrdered allN (sorted ++ [t]) := by
  intro j u fk_col n hget hfind hfk hmem
  by_cases hj : j < sorted.length
  · rw [List.getElem?_append_left hj] at hget
    obtain ⟨i, w, hi, hget', hname⟩ := h j u fk_col n hget hfind hfk hmem
    refine ⟨i, w, hi, ?_, hname⟩
    rw [List.getElem?_append_left (lt_trans hi hj)]
    exact hget'
  · have hj' : sorted.length ≤ j := Nat.le_of_not_lt hj
    rw [List.getElem?_append_right hj'] at hget
    have hjl : j - sorted.length < 1 := (List.getElem?_eq_some.mp hget).1
    have hut : u = t := by
      have h0 : j - sorted.length = 0 := Nat.lt_one_iff.mp hjl
      rw [h0] at hget
      exact (Option.some.inj hget).symm
    subst hut
    have hjlen : j = sorted.length := by omega
    unfold placeable at hp
    simp only [hfind, hfk] at hp
    have hcontains : (sorted.map (fun st => st.name)).contains n = true := by
      rcases Bool.or_eq_true_iff.mp hp with h1 | h1
      · exact h1
      · rw [Bool.not_eq_true', ← Bool.not_eq_true] at h1
        exact absurd (List.elem_iff.mpr hmem) h1
    have hnm : n ∈ sorted.map (fun st => st.name) := List.elem_iff.mp hcontains
    obtain ⟨w, hw, hwname⟩ := List.mem_map.mp hnm
    obtain ⟨i, hi⟩ := List.mem_iff_getElem?.mp hw
    have hilen : i < sorted.length := (List.getElem?_eq_some.mp hi).1
    refine ⟨i, w, by omega, ?_, hwname⟩
    rw [List.getElem?_append_left hilen]
    exact hi

/-- One pass preserves the ordering property of the placed prefix. -/
theorem sortPass_fkOrdered (allN : List String) :
    ∀ (snap sorted pending : List TableSchema),
      fkOrdered allN sorted →
      fkOrdered allN (sortPass allN snap (sorted, pending)).1 := by
  intro snap
  induction snap with
  | nil => intro sorted pending h; exact h
  | cons t rest ih =>
    intro sorted pending h
    simp only [sortPass]
    split
    · rename_i hp
      exact ih _ _ (fkOrdered_append allN sorted t h hp)
    · exact ih _ _ h

/-- One pass only removes elements from pending. -/
theorem sortPass_pending_sublist (allN : List String) :
    ∀ (snap sorted pending : List TableSchema),
      List.Sublist (sortPass allN snap (sorted, pending)).2 pending := by
  intro snap
  induction snap with
  | nil => intro sorted pending; exact List.Sublist.refl _
  | cons t rest ih =>
    intro sorted pending
    simp only [sortPass]
    split
    · exact (ih _ _).trans (List.erase_sublist t pending)
    · exact ih _ _

/-- Coverage: every known name is carried by a placed or a pending table. -/
def covers (allN : List String) (sorted pending : List TableSchema) : Prop :=
  ∀ n ∈ allN, n ∈ namesOf sorted ∨ n ∈ namesOf pending

/-- Coverage is stable under growing the placed list. -/
theorem covers_append_sorted (allN : List String)
    (sorted pending : List TableSchema) (t : TableSchema)
    (h : covers allN sorted pending) : covers allN (sorted ++ [t]) pending := by
  intro n hn
  rcases h n hn with h1 | h1
  · left
    unfold namesOf at h1 ⊢
    rw [List.map_append]
    exact List.mem_append_left _ h1
  · right
    exact h1

/-- Moving a table from pending to the placed list preserves coverage. -/
theorem covers_place (allN : List String) (sorted pending : List TableSchema)
    (t : TableSchema) (h : covers allN sorted pending) :
    covers allN (sorted ++ [t]) (pending.erase t) := by
  intro n hn
  rcases h n hn with h1 | h1
  · left
    unfold namesOf at h1 ⊢
    rw [List.map_append]
    exact List.mem_append_left _ h1
  · by_cases ht : t ∈ pending
    · have hperm := (List.perm_cons_erase ht).map (fun u : TableSchema => u.name)
      have h2 : n ∈ namesOf (t :: pending.erase t) := by
        unfold namesOf at h1 ⊢
        exact hperm.mem_iff.mp h1
      rcases List.mem_cons.mp h2 with h3 | h3
      · left
        unfold namesOf
        rw [List.map_append]
        refine List.mem_append_right _ ?_
        simp [h3]
      · right
        exact h3
    · rw [List.erase_of_not_mem ht]
      right
      exact h1

/-- One pass preserves coverage. -/
theorem sortPass_covers (allN : List String) :
    ∀ (snap sorted pending : List TableSchema),
      covers allN sorted pending →
      covers allN (sortPass allN snap (sorted, pending)).1
        (sortPass allN snap (sorted, pending)).2 := by
  intro snap
  induction snap with
  | nil => intro sorted pending h; exact h
  | cons t rest ih =>
    intro sorted pending h
    simp only [sortPass]
    split
    · exact ih _ _ (covers_place allN sorted pending t h)
    · exact ih _ _ h

/-- One pass keeps all tables inside the original table list. -/
theorem sortPass_mem_orig (allN : List String) (orig : List TableSchema) :
    ∀ (snap sorted pending : List TableSchema),
      (∀ u ∈ snap, u ∈ orig) → (∀ u ∈ sorted, u ∈ orig) →
      (∀ u ∈ pending, u ∈ orig) →
      (∀ u ∈ (sortPass allN snap (sorted, pending)).1, u ∈ orig) ∧
      (∀ u ∈ (sortPass allN snap (sorted, pending)).2, u ∈ orig) := by
  intro snap
  induction snap with
  | nil => intro sorted pending _ h2 h3; exact ⟨h2, h3⟩
  | cons t rest ih =>
    intro sorted pending h1 h2 h3
    simp only [sortPass]
    split
    · refine ih _ _ (fun u hu => h1 u (List.mem_cons_of_mem _ hu)) ?_ ?_
      · intro u hu
        rcases List.mem_append.mp hu with h | h
        · exact h2 u h
        · rw [List.mem_singleton.mp h]
          exact h1 t (List.mem_cons_self _ _)
      · intro u hu
        exact h3 u ((List.erase_sublist t pending).subset hu)
    · exact ih _ _ (fun u hu => h1 u (List.mem_cons_of_mem _ hu)) h2 h3

/-- Every nonempty table list has an element of minimal rank. -/
theorem exists_min_rank (rank : String → Nat) :
    ∀ (l : List TableSchema), l ≠ [] →
      ∃ m ∈ l, ∀ u ∈ l, rank m.name ≤ rank u.name := by
  intro l
  induction l with
  | nil => intro h; exact absurd rfl h
  | cons t ts ih =>
    intro _
    by_cases hts : ts = []
    · subst hts
      refine ⟨t, List.mem_cons_self _ _, ?_⟩
      intro u hu
      rw [List.mem_singleton.mp hu]
    · obtain ⟨m, hm, hmin⟩ := ih hts
      by_cases hc : rank t.name ≤ rank m.name
      · refine ⟨t, List.mem_cons_self _ _, ?_⟩
        intro u hu
        rcases List.mem_cons.mp hu with h | h
        · rw [h]
        · exact le_trans hc (hmin u h)
      · refine ⟨m, List.mem_cons_of_mem _ hm, ?_⟩
        intro u hu
        rcases List.mem_cons.mp hu with h | h
        · rw [h]
          exact Nat.le_of_lt (Nat.lt_of_not_le hc)
        · exact hmin u h

/-- Progress: under an acyclicity rank and internal first-fk targets, a pass
over a nonempty pending list strictly shrinks it (so the "no progress"
fallback of sync_to_db is never taken). -/
theorem sortPass_progress (allN : List String) (rank : String → Nat)
    (orig : List TableSchema)
    (hrank : ∀ t ∈ orig, ∀ c, t.columns.find? (fun c => c.is_fk) = some c →
      ∀ n, c.fk_table = some n → rank n < rank t.name) :
    ∀ (snap sorted pending : List TableSchema) (tstar : TableSchema),
      tstar ∈ snap → tstar ∈ pending →
      (∀ u ∈ pending, rank tstar.name ≤ rank u.name) →
      (∀ u ∈ pending, u ∈ orig) →
      covers allN sorted pending →
      ((sortPass allN snap (sorted, pending)).2).length < pending.length := by
  intro snap
  induction snap with
  | nil => intro sorted pending tstar h; cases h
  | cons t rest ih =>
    intro sorted pending tstar hsnap hpend hmin horig hcov
    simp only [sortPass]
    split
    · rename_i hp
      by_cases ht : t ∈ pending
      · have h1 : ((sortPass allN rest
            (sorted ++ [t], pending.erase t)).2).length ≤
            (pending.erase t).length :=
          (sortPass_pending_sublist allN rest _ _).length_le
        have h2 : (pending.erase t).length < pending.length := by
          rw [List.length_erase_of_mem ht]
          have : 0 < pending.length := List.length_pos_of_mem ht
          omega
        omega
      · rw [List.erase_of_not_mem ht]
        have hne : tstar ≠ t := fun hh => ht (hh ▸ hpend)
        have hsnap' : tstar ∈ rest := by
          rcases List.mem_cons.mp hsnap with h | h
          · exact absurd h hne
          · exact h
        exact ih (sorted ++ [t]) pending tstar hsnap' hpend hmin horig
          (covers_append_sorted allN sorted pending t hcov)
    · rename_i hp
      by_cases he : t = tstar
      · exfalso
        subst he
        rw [Bool.not_eq_true] at hp
        unfold placeable at hp
        cases hfind : t.columns.find? (fun c => c.is_fk) with
        | none =>
          simp only [hfind] at hp
          exact Bool.noConfusion hp
        | some fk_col =>
          simp only [hfind] at hp
          cases hfk : fk_col.fk_table with
          | none =>
            simp only [hfk] at hp
            exact Bool.noConfusion hp
          | some n =>
            simp only [hfk] at hp
            have hp1 : (List.map (fun st => st.name) sorted).contains n = false := by
              revert hp
              cases (List.map (fun st => st.name) sorted).contains n <;> simp
            have hp2 : allN.contains n = true := by
              revert hp
              cases hall : allN.contains n <;> simp [hall]
            have hmem : n ∈ allN := List.elem_iff.mp hp2
            have hnotsorted : n ∉ namesOf sorted := by
              intro hns
              have hc : (List.map (fun st => st.name) sorted).contains n = true :=
                List.elem_iff.mpr hns
              rw [hc] at hp1
              exact Bool.noConfusion hp1
            have hnp : n ∈ namesOf pending := by
              rcases hcov n hmem with h | h
              · exact absurd h hnotsorted
              · exact h
            obtain ⟨u, hu, huname⟩ := List.mem_map.mp hnp
            have hlt : rank n < rank t.name :=
              hrank t (horig t hpend) fk_col hfind n hfk
            have hle : rank t.name ≤ rank u.name := hmin u hu
            rw [huname] at hle
            omega
      · have hsnap' : tstar ∈ rest := by
          rcases List.mem_cons.mp hsnap with h | h
          · exact absurd h.symm he
          · exact h
        exact ih sorted pending tstar hsnap' hpend hmin horig hcov

/-- The outer ordering loop keeps the placed list fk-ordered and inside the
original table set, never hitting the no-progress fallback, under an
acyclicity rank for the first fk columns. -/
theorem sortLoop_fkOrdered (allN : List String) (rank : String → Nat)
    (orig : List TableSchema)
    (hrank : ∀ t ∈ orig, ∀ c, t.columns.find? (fun c => c.is_fk) = some c →
      ∀ n, c.fk_table = some n → rank n < rank t.name) :
    ∀ (fuel : Nat) (sorted pending : List TableSchema),
      pending.length < fuel →
      fkOrdered allN sorted →
      covers allN sorted pending →
      (∀ u ∈ sorted, u ∈ orig) → (∀ u ∈ pending, u ∈ orig) →
      fkOrdered allN (sortLoop allN fuel sorted pending) ∧
      (∀ u ∈ sortLoop allN fuel sorted pending, u ∈ orig) := by
  intro fuel
  induction fuel with
  | zero => intro sorted pending h; exact absurd h (Nat.not_lt_zero _)
  | succ fuel ih =>
    intro sorted pending hfuel hord hcov hso hpo
    cases pending with
    | nil => exact ⟨hord, hso⟩
    | cons p ps =>
      obtain ⟨tstar, htm, htmin⟩ := exists_min_rank rank (p :: ps) (by simp)
      have hprog := sortPass_progress allN rank orig hrank (p :: ps) sorted
        (p :: ps) tstar htm htm htmin hpo hcov
      simp only [sortLoop]
      rw [if_pos hprog]
      have hmem := sortPass_mem_orig allN orig (p :: ps) sorted (p :: ps)
        hpo hso hpo
      refine ih _ _ ?_ (sortPass_fkOrdered allN (p :: ps) sorted (p :: ps) hord)
        (sortPass_covers allN (p :: ps) sorted (p :: ps) hcov) hmem.1 hmem.2
      omega

/-- C8 amended: for every SchemaMap whose foreign-key reference graph admits
a rank function (acyclicity) and whose FK targets all lie inside the
SchemaMap, the ordering computed by sync_to_db places every table strictly
after a table named as the target of its FIRST fk-flagged column - the only
column the loop inspects. (The C8 counterexample shows a second fk column of
the same table need not be respected, so the claim's "every foreign-key
column" reading fails; tables produced by the Analyzer have at most one.) -/
theorem C8_amended_first_fk_order (sm : SchemaMap) (rank : String → Nat)
    (hintern : ∀ t ∈ sm.tables, ∀ c ∈ t.columns, c.is_fk = true →
      ∃ n, c.fk_table = some n ∧ n ∈ sm.tables.map (fun t => t.name))
    (hrank : ∀ t ∈ sm.tables, ∀ c ∈ t.columns, c.is_fk = true →
      ∀ n, c.fk_table = some n → rank n < rank t.name) :
    ∀ (j : Nat) (t : TableSchema) (fk_col : ColumnSchema),
      (sortTables sm.tables)[j]? = some t →
      t.columns.find? (fun c => c.is_fk) = some fk_col →
      ∃ n, fk_col.fk_table = some n ∧
        ∃ (i : Nat) (u : TableSchema), i < j ∧
          (sortTables sm.tables)[i]? = some u ∧ u.name = n := by
  have hrank' : ∀ t ∈ sm.tables, ∀ c,
      t.columns.find? (fun c => c.is_fk) = some c →
      ∀ n, c.fk_table = some n → rank n < rank t.name := by
    intro t ht c hc n hn
    exact hrank t ht c (List.mem_of_find?_eq_some hc)
      (by simpa using List.find?_some hc) n hn
  have hmain := sortLoop_fkOrdered (sm.tables.map (fun t => t.name)) rank
    sm.tables hrank' (sm.tables.length + 1) [] sm.tables
    (by omega)
    (by intro j t fk n h; simp at h)
    (fun n hn => Or.inr hn)
    (fun u hu => absurd hu (List.not_mem_nil u))
    (fun u hu => hu)
  intro j t fk_col hget hfind
  have ht : t ∈ sortTables sm.tables := by
    obtain ⟨hlt, heq⟩ := List.getElem?_eq_some.mp hget
    exact heq ▸ List.getElem_mem _
  have htorig : t ∈ sm.tables := hmain.2 t ht
  have hfkmem := List.mem_of_find?_eq_some hfind
  have hfkfl : fk_col.is_fk = true := by simpa using List.find?_some hfind
  obtain ⟨n, hn, hmemN⟩ := hintern t htorig fk_col hfkmem hfkfl
  obtain ⟨i, u, hi, hgu, hun⟩ := hmain.1 j t fk_col n hget hfind hn hmemN
  exact ⟨n, hn, i, u, hi, hgu, hun⟩

/-- Child table "C" (fk to "P") for the C8 witness. -/
def tW8C : TableSchema :=
  { name := "C", columns := [{ name := "id", type := "INT", is_pk := true },
      { name := "P_id", type := "INT", is_fk := true, fk_table := some "P",
        fk_column := some "id" }] }

/-- Parent table "P" for the C8 witness. -/
def tW8P : TableSchema :=
  { name := "P", columns := [{ name := "id", type := "INT", is_pk := true }],
    is_root := true }

/-- Schema for the C8 witness: the child listed before its parent. -/
def smW8 : SchemaMap := SchemaMap.mk [tW8C, tW8P]

/-- Rank certifying acyclicity of smW8's fk graph. -/
def rankW8 : String → Nat := fun n => if n = "C" then 1 else 0

/-- Witness for C8_amended_first_fk_order: in the computed order [P, C], the
table at index 1 (the child C) is preceded by its fk target P. -/
theorem C8_amended_first_fk_order_witness :
    ∃ n, ({ name := "P_id", type := "INT", is_fk := true,
            fk_table := some "P", fk_column := some "id" } :
            ColumnSchema).fk_table = some n ∧
      ∃ (i : Nat) (u : TableSchema), i < 1 ∧
        (sortTables smW8.tables)[i]? = some u ∧ u.name = n :=
  C8_amended_first_fk_order smW8 rankW8
    (by
      intro t ht c hc hfk
      simp only [smW8, List.mem_cons, List.not_mem_nil, or_false] at ht
      rcases ht with rfl | rfl
      · simp only [tW8C, List.mem_cons, List.not_mem_nil, or_false] at hc
        rcases hc with rfl | rfl
        · exact absurd hfk (by decide)
        · exact ⟨"P", rfl, by decide⟩
      · simp only [tW8P, List.mem_cons, List.not_mem_nil, or_false] at hc
        rcases hc with rfl
        exact absurd hfk (by decide))
    (by
      intro t ht c hc hfk n hn
      simp only [smW8, List.mem_cons, List.not_mem_nil, or_false] at ht
      rcases ht with rfl | rfl
      · simp only [tW8C, List.mem_cons, List.not_mem_nil, or_false] at hc
        rcases hc with rfl | rfl
        · exact absurd hfk (by decide)
        · have hn' : n = "P" := (Option.some.inj hn).symm
          subst hn'
          decide
      · simp only [tW8P, List.mem_cons, List.not_mem_nil, or_false] at hc
        rcases hc with rfl
        exact absurd hfk (by decide))
    1 tW8C
    { name := "P_id", type := "INT", is_fk := true, fk_table := some "P",
      fk_column := some "id" }
    (by rfl) (by rfl)

/-- Table "A" for the C8 counterexample. -/
def tA8 : TableSchema :=
  { name := "A", columns := [{ name := "id", type := "INT", is_pk := true }] }

/-- Table "X" with TWO fk columns (first to "A", second to "Y"). -/
def tX8 : TableSchema :=
  { name := "X", columns := [{ name := "id", type := "INT", is_pk := true },
      { name := "A_id", type := "INT", is_fk := true, fk_table := some "A",
        fk_column := some "id" },
      { name := "Y_id", type := "INT", is_fk := true, fk_table := some "Y",
        fk_column := some "id" }] }

/-- Table "Y" for the C8 counterexample. -/
def tY8 : TableSchema :=
  { name := "Y", columns := [{ name := "id", type := "INT", is_pk := true }] }

/-- Schema for the C8 counterexample. -/
def sm8 : SchemaMap := SchemaMap.mk [tA8, tX8, tY8]

/-- Rank certifying acyclicity of sm8's full fk graph (edges X->A, X->Y). -/
def rank8 : String → Nat := fun n => if n = "X" then 1 else 0

/-- C8 counterexample: sm8 has an acyclic fk graph (certified by rank8) with
all fk targets inside the SchemaMap, yet the computed order is [A, X, Y]:
table X (index 1) declares the foreign-key column Y_id referencing table Y,
which is placed only at index 2, i.e. strictly AFTER X. The loop inspects
only the first fk-flagged column (A_id), so the second one is not honoured. -/
theorem C8_counterexample :
    (sortTables sm8.tables).map (fun t => t.name) = ["A", "X", "Y"] ∧
    (sm8.tables.all (fun t => t.columns.all (fun c =>
      !c.is_fk || (sm8.tables.map (fun u => u.name)).contains
        (c.fk_table.getD "")))) = true ∧
    (sm8.tables.all (fun t => t.columns.all (fun c =>
      !c.is_fk || decide (rank8 (c.fk_table.getD "") < rank8 t.name)))) = true ∧
    ({ name := "Y_id", type := "INT", is_fk := true, fk_table := some "Y",
       fk_column := some "id" } : ColumnSchema) ∈ tX8.columns ∧
    (sortTables sm8.tables)[1]? = some tX8 ∧
    (sortTables sm8.tables)[2]? = some tY8 :=
  ⟨rfl, rfl, rfl, by decide, rfl, rfl⟩

/- ===================== Fuel sufficiency for flattenLoop =====================
The fuel handed to the loops by flatten_data / analyze_json_structure is one
more than the queue weight; the lemmas below show the queue weight strictly
decreases at each iteration, so the result does not depend on the fuel and
the fuel-based recursion computes the same function as Python's unbounded
while loop. -/

/-- Element weights are bounded by the array weight contribution. -/
theorem weightList_le_jweightArr (xs : List Json) :
    weightList xs ≤ jweightArr xs := by
  induction xs with
  | nil => simp [weightList]
  | cons x rest ih =>
    simp only [weightList, List.map_cons, List.sum_cons, jweightArr] at ih ⊢
    omega

/-- Weight of an appended queue. -/
theorem queueMeasureF_append (a b : List FItem) :
    queueMeasureF (a ++ b) = queueMeasureF a + queueMeasureF b := by
  simp [queueMeasureF]

/-- Weight of a queue cell. -/
theorem queueMeasureF_cons (it : FItem) (rest : List FItem) :
    queueMeasureF (it :: rest) =
      (weightList it.2.1 + 1) + queueMeasureF rest := by
  simp [queueMeasureF]

/-- The children enqueued while scanning an object's fields weigh at most the
object's field weights. -/
theorem processFields_items_bound (ts : List (String × TableSchema))
    (schema : TableSchema) (tname : String) (cid : Int) :
    ∀ (fields : List (String × Json)) (row : Row) (items : List FItem),
      queueMeasureF ((processFields ts schema tname cid
        (row, items) fields).2) ≤ queueMeasureF items + jweightObj fields := by
  intro fields
  induction fields with
  | nil =>
    intro row items
    simp [processFields, jweightObj]
  | cons kv rest ih =>
    intro row items
    obtain ⟨k, v⟩ := kv
    simp only [processFields]
    split
    · rename_i hc
      split
      · cases v with
        | arr xs =>
          have hx := ih row
            (items ++ [(flattenerChildName tname k, xs, some cid)])
          rw [queueMeasureF_append] at hx
          have harr := weightList_le_jweightArr xs
          simp only [jweightObj, jweight, queueMeasureF, List.map_cons,
            List.map_nil, List.sum_cons, List.sum_nil] at hx ⊢
          omega
        | obj kvs =>
          have hx := ih row
            (items ++ [(flattenerChildName tname k, [Json.obj kvs], some cid)])
          rw [queueMeasureF_append] at hx
          simp only [jweightObj, jweight, weightList, queueMeasureF,
            List.map_cons, List.map_nil, List.sum_cons, List.sum_nil] at hx ⊢
          omega
        | null => exact absurd hc (by simp [Json.isContainer])
        | bool b => exact absurd hc (by simp [Json.isContainer])
        | int i => exact absurd hc (by simp [Json.isContainer])
        | float q => exact absurd hc (by simp [Json.isContainer])
        | str s => exact absurd hc (by simp [Json.isContainer])
      · have hx := ih row items
        simp only [jweightObj]
        omega
    · split
      · split
        · have hx := ih (aset row "original_id" v) items
          simp only [jweightObj]
          omega
        · have hx := ih row items
          simp only [jweightObj]
          omega
      · split
        · have hx := ih (aset row k v) items
          simp only [jweightObj]
          omega
        · have hx := ih row items
          simp only [jweightObj]
          omega

/-- For a wrapped non-dict element, the single "Value" field enqueues at most
the element's own weight. -/
theorem processFields_single_bound (ts : List (String × TableSchema))
    (schema : TableSchema) (tname : String) (cid : Int) (v : Json)
    (row : Row) (items : List FItem) (hnobj : ∀ kvs, v ≠ Json.obj kvs) :
    queueMeasureF ((processFields ts schema tname cid (row, items)
      [("Value", v)]).2) ≤ queueMeasureF items + jweight v := by
  simp only [processFields]
  split
  · rename_i hc
    split
    · cases v with
      | arr xs =>
        simp only [processFields, queueMeasureF_append]
        have harr := weightList_le_jweightArr xs
        simp only [queueMeasureF, List.map_cons, List.map_nil, List.sum_cons,
          List.sum_nil, jweight]
        omega
      | obj kvs => exact absurd rfl (hnobj kvs)
      | null => exact absurd hc (by simp [Json.isContainer])
      | bool b => exact absurd hc (by simp [Json.isContainer])
      | int i => exact absurd hc (by simp [Json.isContainer])
      | float q => exact absurd hc (by simp [Json.isContainer])
      | str s => exact absurd hc (by simp [Json.isContainer])
    · simp only [processFields]
      omega
  · split
    · split
      · simp only [processFields]
        omega
      · simp only [processFields]
        omega
    · split
      · simp only [processFields]
        omega
      · simp only [processFields]
        omega

/-- The children enqueued for one traversed object weigh at most the object. -/
theorem processObj_items_bound (ts : List (String × TableSchema))
    (tname : String) (schema : TableSchema) (pid : Option Int) (o : Json)
    (st : FlatState) (items : List FItem) :
    queueMeasureF ((processObj ts tname schema pid (st, items) o).2) ≤
      queueMeasureF items + jweight o := by
  have hpf : ∀ current_id : Int,
      queueMeasureF ((processFields ts schema tname current_id
        (initRow schema pid current_id, items)
        (match o with | .obj kvs => kvs | _ => [("Value", o)])).2) ≤
      queueMeasureF items + jweight o := by
    intro current_id
    cases o with
    | obj kvs =>
      have hb := processFields_items_bound ts schema tname current_id kvs
        (initRow schema pid current_id) items
      simp only [jweight]
      omega
    | arr xs =>
      exact processFields_single_bound ts schema tname current_id
        (Json.arr xs) (initRow schema pid current_id) items
        (fun kvs h => Json.noConfusion h)
    | null =>
      exact processFields_single_bound ts schema tname current_id
        Json.null (initRow schema pid current_id) items
        (fun kvs h => Json.noConfusion h)
    | bool b =>
      exact processFields_single_bound ts schema tname current_id
        (Json.bool b) (initRow schema pid current_id) items
        (fun kvs h => Json.noConfusion h)
    | int i =>
      exact processFields_single_bound ts schema tname current_id
        (Json.int i) (initRow schema pid current_id) items
        (fun kvs h => Json.noConfusion h)
    | float q =>
      exact processFields_single_bound ts schema tname current_id
        (Json.float q) (initRow schema pid current_id) items
        (fun kvs h => Json.noConfusion h)
    | str s =>
      exact processFields_single_bound ts schema tname current_id
        (Json.str s) (initRow schema pid current_id) items
        (fun kvs h => Json.noConfusion h)
  simp only [processObj]
  split
  · exact Nat.le_add_right _ _
  · rename_i current_id heq
    split
    · exact hpf current_id
    · exact hpf current_id

/-- The fold over one item's objects enqueues at most the objects' weight. -/
theorem foldl_processObj_items_bound (ts : List (String × TableSchema))
    (tname : String) (schema : TableSchema) (pid : Option Int) :
    ∀ (objs : List Json) (st : FlatState) (items : List FItem),
      queueMeasureF ((objs.foldl (processObj ts tname schema pid)
        (st, items)).2) ≤ queueMeasureF items + weightList objs := by
  intro objs
  induction objs with
  | nil => intro st items; simp [weightList]
  | cons o os ih =>
    intro st items
    rw [List.foldl_cons]
    rw [show processObj ts tname schema pid (st, items) o =
      ((processObj ts tname schema pid (st, items) o).1,
       (processObj ts tname schema pid (st, items) o).2) from rfl]
    have h1 := ih (processObj ts tname schema pid (st, items) o).1
      (processObj ts tname schema pid (st, items) o).2
    have h2 := processObj_items_bound ts tname schema pid o st items
    simp only [weightList, List.map_cons, List.sum_cons] at h1 ⊢
    omega

/-- Any two sufficient fuels give the same flattenLoop result: the queue
weight strictly decreases at each iteration, so fuel exceeding it never
runs out and the loop equals Python's unbounded while loop. -/
theorem flattenLoop_fuel_irrel (ts : List (String × TableSchema)) :
    ∀ (f1 f2 : Nat) (queue : List FItem) (st : FlatState),
      queueMeasureF queue < f1 → queueMeasureF queue < f2 →
      flattenLoop ts f1 queue st = flattenLoop ts f2 queue st := by
  intro f1
  induction f1 using Nat.strong_induction_on with
  | _ f1 ih =>
    intro f2 queue st h1 h2
    cases queue with
    | nil => cases f1 <;> cases f2 <;> rfl
    | cons item rest =>
      obtain ⟨tname, objs, pid⟩ := item
      have hm := queueMeasureF_cons (tname, objs, pid) rest
      obtain ⟨a, rfl⟩ : ∃ a, f1 = a + 1 := ⟨f1 - 1, by omega⟩
      obtain ⟨b, rfl⟩ : ∃ b, f2 = b + 1 := ⟨f2 - 1, by omega⟩
      simp only [flattenLoop]
      cases hs : alookup ts tname with
      | none =>
        exact ih a (by omega) b rest st (by simp only [hm] at h1; omega)
          (by simp only [hm] at h2; omega)
      | some schema =>
        have hfold := foldl_processObj_items_bound ts tname schema pid objs st []
        have hnew : queueMeasureF (rest ++
            (objs.foldl (processObj ts tname schema pid) (st, [])).2) ≤
            queueMeasureF rest + weightList objs := by
          rw [queueMeasureF_append]
          have h0 : queueMeasureF ([] : List FItem) = 0 := rfl
          omega
        exact ih a (by omega) b _ _
          (by simp only [hm] at h1; omega)
          (by simp only [hm] at h2; omega)

/-- The fuel flatten_data hands to its loop is sufficient: any larger fuel
computes the same result. -/
theorem flattenLoop_fuel_sufficient (ts : List (String × TableSchema))
    (queue : List FItem) (st : FlatState) (extra : Nat)
    (h : queueMeasureF queue < extra) :
    flattenLoop ts extra queue st =
      flattenLoop ts (queueMeasureF queue + 1) queue st :=
  flattenLoop_fuel_irrel ts extra (queueMeasureF queue + 1) queue st h
    (Nat.lt_succ_self _)

/- ===================== Fuel sufficiency for analyzeLoop ===================== -/

/-- Weight of the accumulated child_arrays (one queue item per key). -/
def caMeasure (ca : List (String × List Json)) : Nat :=
  (ca.map (fun kv => weightList kv.2 + 1)).sum

/-- Weight of appended lists. -/
theorem weightList_append (a b : List Json) :
    weightList (a ++ b) = weightList a + weightList b := by
  simp [weightList]

/-- aset at a fresh key appends the binding. -/
theorem caMeasure_aset_of_none :
    ∀ (ca : List (String × List Json)) (k : String) (add : List Json),
      alookup ca k = none →
      caMeasure (aset ca k add) = caMeasure ca + (weightList add + 1) := by
  intro ca
  induction ca with
  | nil => intro k add _; simp [aset, caMeasure]
  | cons kv rest ih =>
    intro k add h
    obtain ⟨k', v'⟩ := kv
    simp only [alookup] at h
    by_cases he : k' = k
    · rw [if_pos he] at h
      exact Option.noConfusion h
    · rw [if_neg he] at h
      simp only [aset, if_neg he, caMeasure, List.map_cons, List.sum_cons]
      have := ih k add h
      simp only [caMeasure] at this
      omega

/-- aset extending an existing entry adds exactly the extension's weight. -/
theorem caMeasure_aset_of_some :
    ∀ (ca : List (String × List Json)) (k : String) (l add : List Json),
      alookup ca k = some l →
      caMeasure (aset ca k (l ++ add)) = caMeasure ca + weightList add := by
  intro ca
  induction ca with
  | nil => intro k l add h; exact Option.noConfusion h
  | cons kv rest ih =>
    intro k l add h
    obtain ⟨k', v'⟩ := kv
    simp only [alookup] at h
    by_cases he : k' = k
    · rw [if_pos he] at h
      have hv : v' = l := Option.some.inj h
      subst hv
      simp only [aset, if_pos he, caMeasure, List.map_cons, List.sum_cons,
        weightList_append]
      omega
    · rw [if_neg he] at h
      simp only [aset, if_neg he, caMeasure, List.map_cons, List.sum_cons]
      have := ih k l add h
      simp only [caMeasure] at this
      omega

/-- One caAdd costs at most the added weight plus one (for a fresh key). -/
theorem caMeasure_caAdd (ca : List (String × List Json)) (k : String)
    (add : List Json) :
    caMeasure (caAdd ca k add) ≤ caMeasure ca + weightList add + 1 := by
  unfold caAdd
  cases h : alookup ca k with
  | none =>
    rw [caMeasure_aset_of_none ca k add h]
    omega
  | some l =>
    rw [caMeasure_aset_of_some ca k l add h]
    omega

/-- Wrapping scalars weighs exactly the array contribution. -/
theorem weightList_map_wrapValue (xs : List Json) :
    weightList (xs.map wrapValue) = jweightArr xs := by
  induction xs with
  | nil => simp [weightList, jweightArr]
  | cons x rest ih =>
    simp only [List.map_cons, weightList, List.sum_cons, jweightArr,
      wrapValue, jweight, jweightObj] at ih ⊢
    omega

/-- One scanned field grows child_arrays by at most one plus its weight. -/
theorem scanField_bound (acc : List (String × String) × List (String × List Json))
    (kv : String × Json) :
    caMeasure (scanField acc kv).2 ≤ caMeasure acc.2 + (1 + jweight kv.2) := by
  obtain ⟨cm, ca⟩ := acc
  obtain ⟨k, v⟩ := kv
  cases v with
  | null => simp only [scanField]; omega
  | obj kvs =>
    simp only [scanField]
    have := caMeasure_caAdd ca k [Json.obj kvs]
    simp only [weightList, List.map_cons, List.map_nil, List.sum_cons,
      List.sum_nil] at this
    omega
  | arr xs =>
    cases xs with
    | nil => simp only [scanField]; omega
    | cons x rest =>
      simp only [scanField]
      split
      · have := caMeasure_caAdd ca k (x :: rest)
        have harr := weightList_le_jweightArr (x :: rest)
        simp only [jweight]
        omega
      · have := caMeasure_caAdd ca k ((x :: rest).map wrapValue)
        rw [weightList_map_wrapValue] at this
        simp only [jweight]
        omega
  | bool b =>
    simp only [scanField]
    cases alookup cm k <;> simp
  | int i =>
    simp only [scanField]
    cases alookup cm k <;> simp
  | float q =>
    simp only [scanField]
    cases alookup cm k <;> simp
  | str s =>
    simp only [scanField]
    cases alookup cm k <;> simp

/-- One scanned object grows child_arrays by at most its weight. -/
theorem scanObj_bound (acc : List (String × String) × List (String × List Json))
    (o : Json) : caMeasure (scanObj acc o).2 ≤ caMeasure acc.2 + jweight o := by
  have key : ∀ (kvs : List (String × Json))
      (acc : List (String × String) × List (String × List Json)),
      caMeasure (kvs.foldl scanField acc).2 ≤
        caMeasure acc.2 + jweightObj kvs := by
    intro kvs
    induction kvs with
    | nil => intro acc; simp [jweightObj]
    | cons kv rest ih =>
      intro acc
      rw [List.foldl_cons]
      have h1 := ih (scanField acc kv)
      have h2 := scanField_bound acc kv
      simp only [jweightObj]
      omega
  cases o with
  | obj kvs =>
    have := key kvs acc
    simp only [scanObj, jweight]
    omega
  | null => simp only [scanObj]; omega
  | bool b => simp only [scanObj]; omega
  | int i => simp only [scanObj]; omega
  | float q => simp only [scanObj]; omega
  | str s => simp only [scanObj]; omega
  | arr xs => simp only [scanObj]; omega

/-- Truncating the sample only lowers its weight. -/
theorem weightList_take (n : Nat) :
    ∀ (l : List Json), weightList (l.take n) ≤ weightList l := by
  induction n with
  | zero => intro l; simp [weightList]
  | succ n ih =>
    intro l
    cases l with
    | nil => simp [weightList]
    | cons x rest =>
      simp only [List.take_succ_cons, weightList, List.map_cons,
        List.sum_cons]
      have := ih rest
      simp only [weightList] at this
      omega

/-- The sampled child_arrays weigh at most the item's objects. -/
theorem analyzeSample_bound (objects : List Json) :
    caMeasure (analyzeSample objects).2 ≤ weightList objects := by
  have key : ∀ (l : List Json)
      (acc : List (String × String) × List (String × List Json)),
      caMeasure (l.foldl scanObj acc).2 ≤ caMeasure acc.2 + weightList l := by
    intro l
    induction l with
    | nil => intro acc; simp [weightList]
    | cons o rest ih =>
      intro acc
      rw [List.foldl_cons]
      have h1 := ih (scanObj acc o)
      have h2 := scanObj_bound acc o
      simp only [weightList, List.map_cons, List.sum_cons] at h1 ⊢
      omega
  unfold analyzeSample
  have h1 := key (objects.take 100) ([], [])
  have h2 := weightList_take 100 objects
  have h0 : caMeasure (([], []) :
    List (String × String) × List (String × List Json)).2 = 0 := rfl
  omega

/-- Queue weight of appended analyzer queues. -/
theorem queueMeasureA_append (a b : List AItem) :
    queueMeasureA (a ++ b) = queueMeasureA a + queueMeasureA b := by
  simp [queueMeasureA]

/-- Queue weight of an analyzer queue cell. -/
theorem queueMeasureA_cons (it : AItem) (rest : List AItem) :
    queueMeasureA (it :: rest) =
      (weightList it.2.1 + 1) + queueMeasureA rest := by
  simp [queueMeasureA]

/-- The enqueued child items weigh exactly the child_arrays they come from. -/
theorem queueMeasureA_newItems (name : String)
    (ca : List (String × List Json)) :
    queueMeasureA (ca.map (fun kv =>
      (analyzerChildName name kv.1, kv.2, some name))) = caMeasure ca := by
  induction ca with
  | nil => rfl
  | cons kv rest ih =>
    simp only [List.map_cons, queueMeasureA, caMeasure, List.sum_cons] at ih ⊢
    omega

/-- Any two sufficient fuels give the same analyzeLoop result. -/
theorem analyzeLoop_fuel_irrel :
    ∀ (f1 f2 : Nat) (queue : List AItem) (processed : List String)
      (tables : List (String × TableSchema)),
      queueMeasureA queue < f1 → queueMeasureA queue < f2 →
      analyzeLoop f1 queue processed tables =
        analyzeLoop f2 queue processed tables := by
  intro f1
  induction f1 using Nat.strong_induction_on with
  | _ f1 ih =>
    intro f2 queue processed tables h1 h2
    cases queue with
    | nil => cases f1 <;> cases f2 <;> rfl
    | cons item rest =>
      obtain ⟨name, objs, parent⟩ := item
      have hm := queueMeasureA_cons (name, objs, parent) rest
      obtain ⟨a, rfl⟩ : ∃ a, f1 = a + 1 := ⟨f1 - 1, by omega⟩
      obtain ⟨b, rfl⟩ : ∃ b, f2 = b + 1 := ⟨f2 - 1, by omega⟩
      simp only [analyzeLoop]
      split
      · exact ih a (by omega) b rest processed tables
          (by simp only [hm] at h1; omega) (by simp only [hm] at h2; omega)
      · split
        · exact ih a (by omega) b rest processed tables
            (by simp only [hm] at h1; omega) (by simp only [hm] at h2; omega)
        · have hca := analyzeSample_bound objs
          have hnew := queueMeasureA_newItems name (analyzeSample objs).2
          have hle : queueMeasureA (rest ++ (analyzeSample objs).2.map
              (fun kv => (analyzerChildName name kv.1, kv.2, some name))) ≤
              queueMeasureA rest + weightList objs := by
            rw [queueMeasureA_append, hnew]
            omega
          exact ih a (by omega) b _ _ _
            (by simp only [hm] at h1; omega)
            (by simp only [hm] at h2; omega)

/-- The fuel analyze_json_structure hands to its loop is sufficient. -/
theorem analyzeLoop_fuel_sufficient (queue : List AItem)
    (processed : List String) (tables : List (String × TableSchema))
    (extra : Nat) (h : queueMeasureA queue < extra) :
    analyzeLoop extra queue processed tables =
      analyzeLoop (queueMeasureA queue + 1) queue processed tables :=
  analyzeLoop_fuel_irrel extra (queueMeasureA queue + 1) queue processed
    tables h (Nat.lt_succ_self _)

/-- Any two sufficient fuels give the same sortLoop result: the loop only
recurses when pending strictly shrank, so tables.length + 1 is always
enough fuel. -/
theorem sortLoop_fuel_irrel (allN : List String) :
    ∀ (f1 f2 : Nat) (sorted pending : List TableSchema),
      pending.length < f1 → pending.length < f2 →
      sortLoop allN f1 sorted pending = sortLoop allN f2 sorted pending := by
  intro f1
  induction f1 using Nat.strong_induction_on with
  | _ f1 ih =>
    intro f2 sorted pending h1 h2
    cases pending with
    | nil => cases f1 <;> cases f2 <;> rfl
    | cons p ps =>
      obtain ⟨a, rfl⟩ : ∃ a, f1 = a + 1 := ⟨f1 - 1, by omega⟩
      obtain ⟨b, rfl⟩ : ∃ b, f2 = b + 1 := ⟨f2 - 1, by omega⟩
      simp only [sortLoop]
      by_cases hc : (sortPass allN (p :: ps) (sorted, p :: ps)).2.length <
          (p :: ps).length
      · rw [if_pos hc, if_pos hc]
        exact ih a (by omega) b _ _ (by omega) (by omega)
      · rw [if_neg hc, if_neg hc]
